import Mathlib

/-!
Verification of the `py-ulid` library (module `ulid/ulid.py`).

The development shallowly embeds the pure computational core of the library:
the Crockford Base32 codec (`ULID.encode`, `ULID.encode_timestamp`,
`ULID.decode`, `ULID.from_bits_to_ulidstr`) and the monotonic generator
state machine (`Monotonic.generate`).

Modelling conventions:
* Python's arbitrary-precision integers are `Nat` (or `Int` at an API
  boundary where negative inputs must be representable).
* Python binary strings such as `format(x, "050b")` are `List Bool`
  (most-significant bit first); `padBits w x` is `format(x, f"0{w\x7d b")`
  (zero-padded to width `w`, longer when `x` needs more than `w` bits,
  exactly as in Python), and `bitsToNat` is `int(bits, base=2)` on a
  non-empty bit string.
* Python exceptions are the inductive `PyError`; the source only ever
  raises `TypeError` and `ValueError`, while `OverflowError` is carried
  in the type so that statements about it can be expressed.
* `isinstance` checks are modelled by the `PyVal` sum of an integer and a
  non-integer value.
* `datetime` values are integers counting microseconds since the Unix
  epoch (Python `datetime` has microsecond resolution);
  `int(dt.timestamp() * 1000)` is idealised to exact integer division
  `us / 1000`, abstracting from binary floating-point rounding.
* The wall clock read `datetime.now(timezone.utc)` and the entropy draw
  `secrets.randbits(80)` are inputs of `Monotonic.generate`, turning the
  stateful method into an explicit state-transition function.
-/

/-- Repeated division by two producing the little-endian binary digits
of `n`; the first argument is a structural-recursion bound, never
reached while `n` is positive because `n` halves at every step. -/
def bitsLEAux : ℕ → ℕ → List Bool
  | 0, _ => []
  | fuel + 1, n => if n = 0 then [] else decide (n % 2 = 1) :: bitsLEAux fuel (n / 2)

/-- Little-endian list of binary digits of `n`; empty for `0`. -/
def bitsLE (n : ℕ) : List Bool :=
  bitsLEAux n n

/-- Python's binary digit string `format(n, "b")` (equivalently
`bin(n)[2:]`), most significant bit first; `"0"` for `0`. -/
def natBits (n : ℕ) : List Bool :=
  if n = 0 then [false] else (bitsLE n).reverse

/-- Python's zero-padded binary string `format(n, f"0{w\x7d b")`: at least
`w` digits, left-padded with zeros, never truncated. -/
def padBits (w n : ℕ) : List Bool :=
  List.replicate (w - (natBits n).length) false ++ natBits n

/-- Python's `int(bits, base=2)` on a bit string, read big-endian.
(The Python call raises on the empty string; that case is handled at the
call sites via `intOfBits`.) -/
def bitsToNat (l : List Bool) : ℕ :=
  l.foldl (fun a b => 2 * a + b.toNat) 0

/-- Python's `len(bin(n)[2:])`: the number of binary digits of `n`
(one digit for `0`). -/
def pyBitLen (n : ℕ) : ℕ :=
  (natBits n).length

/-- A Python value passed to an API that performs an `isinstance` check:
either an `int` or some non-integer value (represented by a string). -/
inductive PyVal where
  | int (i : ℤ)
  | str (s : String)
deriving DecidableEq

/-- The kinds of Python exception relevant to this library.  The source
code raises only `TypeError` and `ValueError`; `OverflowError` is a
further Python builtin exception named by the specification. -/
inductive PyError where
  | typeError
  | valueError
  | overflowError
deriving DecidableEq

namespace ULID

/-- Bit width of the timestamp component (`ULID._time` in the source). -/
def timeWidth : ℕ := 50

/-- Bit width of the randomness component (`ULID._randomness`). -/
def randomnessWidth : ℕ := 80

/-- The 32-symbol Crockford Base32 alphabet (`ULID.crockford_base`). -/
def crockford_base : String := "0123456789ABCDEFGHJKMNPQRSTVWXYZ"

/-- The alphabet as a list of characters. -/
def crockfordData : List Char := crockford_base.data

/-- Character of the alphabet at (5-bit) index `n`; the source indexes
`crockford_base[n]` with `n < 32` at every call site, so the out-of-range
default is never reached. -/
def crockfordChar (n : ℕ) : Char := crockfordData.getD n 'X'

/-- Maximum representable epoch timestamp in milliseconds,
`ULID.MAX_EPOCH_TIME = 2^48 - 1`. -/
def MAX_EPOCH_TIME : ℕ := 281474976710655

/-- The loop of `ULID._from_bits_to_ulidstr`, `for i in range(0,
len(ulid_bits), 5)`: consume the bit string in 5-bit chunks from the
most significant end, mapping each chunk's value to its alphabet
character (a final chunk shorter than 5 bits is taken whole, exactly as
the Python slice `ulid_bits[i:i+5]` behaves). -/
def fromBitsAux : List Bool → List Char
  | [] => []
  | b1 :: b2 :: b3 :: b4 :: b5 :: rest =>
    crockfordChar (bitsToNat [b1, b2, b3, b4, b5]) :: fromBitsAux rest
  | l => [crockfordChar (bitsToNat l)]

/-- `ULID._from_bits_to_ulidstr(ulid_bits)`: encode a bit string into its
Crockford Base32 string. -/
def from_bits_to_ulidstr (ulid_bits : List Bool) : String :=
  ⟨fromBitsAux ulid_bits⟩

/-- `ULID.encode(i)`: type-check, range-check, then encode the value as a
130-bit zero-padded bit string rendered in Base32 (26 characters). -/
def encode (v : PyVal) : Except PyError String :=
  match v with
  | .str _ => .error .typeError
  | .int i =>
    if i < 0 then .error .valueError
    else if (1 <<< 128 : ℤ) ≤ i then .error .valueError
    else .ok (from_bits_to_ulidstr (padBits (timeWidth + randomnessWidth) i.toNat))

/-- `ULID.encode_timestamp(t)`: type-check, range-check against
`MAX_EPOCH_TIME`, then encode the timestamp as a 50-bit zero-padded bit
string rendered in Base32 (10 characters). -/
def encode_timestamp (v : PyVal) : Except PyError String :=
  match v with
  | .str _ => .error .typeError
  | .int t =>
    if t < 0 then .error .valueError
    else if (MAX_EPOCH_TIME : ℤ) < t then .error .valueError
    else .ok (from_bits_to_ulidstr (padBits timeWidth t.toNat))

/-- The character loop of `ULID.decode`: look each character up in the
alphabet (`str.find`, first index or failure) and append its 5-bit
zero-padded binary representation. -/
def decodeBits : List Char → Except PyError (List Bool)
  | [] => .ok []
  | c :: cs =>
    match crockfordData.indexOf? c with
    | none => .error .valueError
    | some pos => do
      let rest ← decodeBits cs
      return padBits 5 pos ++ rest

/-- Python's `int(s, base=2)` including its failure on the empty string. -/
def intOfBits (l : List Bool) : Except PyError ℕ :=
  if l.isEmpty then .error .valueError else .ok (bitsToNat l)

/-- `ULID.decode(s)`: length check, per-character alphabet lookup,
timestamp slice (first 50 bits) with range check, then randomness slice
(remaining bits).  The `isinstance(s, str)` check of the source is
enforced by the Lean type of the argument. -/
def decode (s : String) : Except PyError (ℕ × ℕ) :=
  if 26 < s.length then .error .valueError
  else do
    let ulid_bits ← decodeBits s.data
    let epoch_time_in_ms ← intOfBits (ulid_bits.take timeWidth)
    if MAX_EPOCH_TIME < epoch_time_in_ms then .error .valueError
    else do
      let random_component ← intOfBits (ulid_bits.drop timeWidth)
      return (epoch_time_in_ms, random_component)

end ULID

/-- State of a `Monotonic` generator instance: `__prev_utc_time` (a
`datetime`, modelled as microseconds since epoch), `__prev_rand_bits`
(the stored 80-bit binary string, or `None`), and the constructor
argument `seed_time` (never read by `generate`). -/
structure Monotonic where
  prevUtcTime : ℕ
  prevRandBits : Option (List Bool)
  seedTime : Option ℤ
deriving DecidableEq

namespace Monotonic

/-- `Monotonic.__init__(seed)`: `__prev_utc_time` is the epoch
(1970-01-01), `__prev_rand_bits` is `None`, and the seed is stored. -/
def init (seed : Option ℤ) : Monotonic :=
  ⟨0, none, seed⟩

/-- `Monotonic.generate()`, with the wall-clock reading `currUs`
(microseconds since epoch) and the entropy draw `freshRand`
(`secrets.randbits(80)`) made explicit inputs.

The source computes `ms_diff = (curr - prev).microseconds / 1000`, i.e.
it uses only the microseconds field of the `timedelta` — the
sub-second-in-microseconds component `(currUs - prevUs) mod 10^6` — and
takes the same-millisecond branch when `ms_diff <= 1.0`, that is when
that component is at most `1000`. -/
def generate (m : Monotonic) (currUs : ℕ) (freshRand : ℕ) :
    Except PyError (String × Monotonic) :=
  if ((currUs : ℤ) - (m.prevUtcTime : ℤ)) % 1000000 ≤ 1000 then
    -- same-millisecond branch
    let prev_utc_timestamp := m.prevUtcTime / 1000
    let epoch_bits := padBits ULID.timeWidth prev_utc_timestamp
    match m.prevRandBits with
    | none =>
      let rand_num_bits := padBits ULID.randomnessWidth freshRand
      .ok (ULID.from_bits_to_ulidstr (epoch_bits ++ rand_num_bits),
        { m with prevRandBits := some rand_num_bits })
    | some prev_bits =>
      let prev_rand_num := bitsToNat prev_bits
      if ULID.randomnessWidth < pyBitLen (prev_rand_num + 1) then
        .error .valueError
      else
        let rand_num_bits := padBits ULID.randomnessWidth (prev_rand_num + 1)
        .ok (ULID.from_bits_to_ulidstr (epoch_bits ++ rand_num_bits),
          { m with prevRandBits := some rand_num_bits })
  else
    -- new-millisecond branch
    let curr_utc_timestamp := currUs / 1000
    let epoch_bits := padBits ULID.timeWidth curr_utc_timestamp
    let rand_num_bits := padBits ULID.randomnessWidth freshRand
    .ok (ULID.from_bits_to_ulidstr (epoch_bits ++ rand_num_bits),
      { m with prevUtcTime := currUs, prevRandBits := some rand_num_bits })

/-- Run a sequence of `generate` calls from a given state; each element
of `inputs` is one call's wall-clock reading (microseconds) and entropy
draw.  Returns the emitted strings in order and the final state. -/
def runGen : Monotonic → List (ℕ × ℕ) → Except PyError (List String × Monotonic)
  | m, [] => .ok ([], m)
  | m, (t, r) :: rest => do
    let (o, m1) ← m.generate t r
    let (os, mf) ← runGen m1 rest
    return (o :: os, mf)

end Monotonic

instance {ε α : Type} [DecidableEq ε] [DecidableEq α] : DecidableEq (Except ε α) :=
  fun x y =>
    match x, y with
    | .ok a, .ok b =>
      if h : a = b then .isTrue (by rw [h]) else .isFalse (fun hh => h (Except.ok.inj hh))
    | .error a, .error b =>
      if h : a = b then .isTrue (by rw [h]) else .isFalse (fun hh => h (Except.error.inj hh))
    | .ok _, .error _ => .isFalse (fun hh => Except.noConfusion hh)
    | .error _, .ok _ => .isFalse (fun hh => Except.noConfusion hh)

/-- Folding the bit-accumulator from an arbitrary start value. -/
lemma bitsToNat_foldl_acc (l : List Bool) (a : ℕ) :
    l.foldl (fun x b => 2 * x + b.toNat) a = a * 2 ^ l.length + bitsToNat l := by
  induction l generalizing a with
  | nil => simp [bitsToNat]
  | cons b t ih =>
    simp only [List.foldl_cons, List.length_cons, bitsToNat]
    rw [ih (2 * a + b.toNat), ih (2 * 0 + b.toNat)]
    ring

lemma bitsToNat_cons (b : Bool) (t : List Bool) :
    bitsToNat (b :: t) = b.toNat * 2 ^ t.length + bitsToNat t := by
  have := bitsToNat_foldl_acc t b.toNat
  simp only [bitsToNat, List.foldl_cons]
  simpa using this

lemma bitsToNat_append (l m : List Bool) :
    bitsToNat (l ++ m) = bitsToNat l * 2 ^ m.length + bitsToNat m := by
  simp only [bitsToNat, List.foldl_append]
  exact bitsToNat_foldl_acc m (List.foldl (fun x b => 2 * x + b.toNat) 0 l)

lemma bitsToNat_lt (l : List Bool) : bitsToNat l < 2 ^ l.length := by
  induction l with
  | nil => simp [bitsToNat]
  | cons b t ih =>
    rw [bitsToNat_cons]
    have hb : b.toNat ≤ 1 := Bool.toNat_le b
    simp only [List.length_cons, pow_succ]
    nlinarith [pow_pos (show 0 < 2 by norm_num) t.length]

lemma bitsToNat_replicate_false (n : ℕ) : bitsToNat (List.replicate n false) = 0 := by
  induction n with
  | zero => simp [bitsToNat]
  | succ k ih => rw [List.replicate_succ, bitsToNat_cons]; simp [ih]

lemma bitsLEAux_zero (fuel : ℕ) : bitsLEAux fuel 0 = [] := by
  cases fuel <;> rfl

lemma bitsLEAux_foldr : ∀ fuel n, n ≤ fuel →
    (bitsLEAux fuel n).foldr (fun b a => 2 * a + b.toNat) 0 = n := by
  intro fuel
  induction fuel with
  | zero =>
    intro n hn
    interval_cases n
    rfl
  | succ f ih =>
    intro n hn
    rw [bitsLEAux]
    split
    · rename_i h
      simp [h]
    · rename_i h
      rw [List.foldr_cons, ih (n / 2) (by omega)]
      rcases Nat.mod_two_eq_zero_or_one n with h2 | h2 <;> simp [h2] <;> omega

lemma bitsLE_foldr (n : ℕ) :
    (bitsLE n).foldr (fun b a => 2 * a + b.toNat) 0 = n :=
  bitsLEAux_foldr n n (le_refl n)

lemma natBits_toNat (n : ℕ) : bitsToNat (natBits n) = n := by
  rw [natBits]
  split
  · simp [bitsToNat]; omega
  · rw [bitsToNat, List.foldl_reverse]
    exact bitsLE_foldr n

lemma bitsLEAux_length_le {w : ℕ} : ∀ {fuel n : ℕ}, n < 2 ^ w → n ≤ fuel →
    (bitsLEAux fuel n).length ≤ w := by
  induction w with
  | zero =>
    intro fuel n h _
    have hn : n = 0 := by omega
    subst hn
    rw [bitsLEAux_zero]
    simp
  | succ k ih =>
    intro fuel n h hf
    by_cases hn : n = 0
    · subst hn
      rw [bitsLEAux_zero]
      simp
    · cases fuel with
      | zero => omega
      | succ f =>
        rw [bitsLEAux, if_neg hn]
        simp only [List.length_cons]
        have h2 : n / 2 < 2 ^ k := by
          rw [pow_succ] at h
          exact Nat.div_lt_of_lt_mul (by omega)
        exact Nat.succ_le_succ (ih h2 (by omega))

lemma bitsLE_length_le {w n : ℕ} (h : n < 2 ^ w) : (bitsLE n).length ≤ w :=
  bitsLEAux_length_le h (le_refl n)

lemma natBits_length_le {w n : ℕ} (hw : 1 ≤ w) (h : n < 2 ^ w) :
    (natBits n).length ≤ w := by
  rw [natBits]
  split
  · simpa
  · simpa using bitsLE_length_le h

lemma padBits_length {w n : ℕ} (hw : 1 ≤ w) (h : n < 2 ^ w) :
    (padBits w n).length = w := by
  have := natBits_length_le hw h
  simp only [padBits, List.length_append, List.length_replicate]
  omega

lemma bitsToNat_padBits (w n : ℕ) : bitsToNat (padBits w n) = n := by
  rw [padBits, bitsToNat_append, bitsToNat_replicate_false, natBits_toNat]
  ring

lemma bitsToNat_inj : ∀ {l₁ l₂ : List Bool}, l₁.length = l₂.length →
    bitsToNat l₁ = bitsToNat l₂ → l₁ = l₂
  | [], [], _, _ => rfl
  | a :: t₁, b :: t₂, hlen, hval => by
    simp only [List.length_cons, Nat.succ_inj] at hlen
    rw [bitsToNat_cons, bitsToNat_cons, hlen] at hval
    have h₁ := bitsToNat_lt t₁
    have h₂ := bitsToNat_lt t₂
    rw [hlen] at h₁
    have hab : a = b := by
      cases a <;> cases b
      case false.false => rfl
      case false.true => simp at hval; omega
      case true.false => simp at hval; omega
      case true.true => rfl

    subst hab
    have : bitsToNat t₁ = bitsToNat t₂ := by omega
    rw [bitsToNat_inj hlen this]

lemma padBits_bitsToNat_self {l : List Bool} (h : 1 ≤ l.length) :
    padBits l.length (bitsToNat l) = l :=
  bitsToNat_inj (padBits_length h (bitsToNat_lt l)) (bitsToNat_padBits _ _)

lemma padBits_add {a b n : ℕ} (ha : 1 ≤ a) (hb : 1 ≤ b) (h : n < 2 ^ (a + b)) :
    padBits (a + b) n = padBits a (n / 2 ^ b) ++ padBits b (n % 2 ^ b) := by
  have hdiv : n / 2 ^ b < 2 ^ a := by
    apply Nat.div_lt_of_lt_mul
    rw [← pow_add, Nat.add_comm b a]
    omega
  have hmod : n % 2 ^ b < 2 ^ b := Nat.mod_lt _ (pow_pos (by norm_num) b)
  apply bitsToNat_inj
  · rw [padBits_length (by omega) h, List.length_append,
      padBits_length ha hdiv, padBits_length hb hmod]
  · rw [bitsToNat_padBits, bitsToNat_append, padBits_length hb hmod,
      bitsToNat_padBits, bitsToNat_padBits]
    exact (Nat.div_add_mod' n (2 ^ b)).symm

/-- Base-32 digit expansion with `k` digits, most significant first:
the characters produced by `ULID._from_bits_to_ulidstr` on a `5*k`-bit
zero-padded bit string (proved below as `fromBitsAux_padBits`). -/
def base32 : ℕ → ℕ → List Char
  | 0, _ => []
  | k + 1, x => ULID.crockfordChar (x / 32 ^ k) :: base32 k (x % 32 ^ k)

lemma base32_length (k x : ℕ) : (base32 k x).length = k := by
  induction k generalizing x with
  | zero => rfl
  | succ n ih => simp [base32, ih]

lemma crockfordChar_strictMono :
    ∀ i < 32, ∀ j < 32, i < j → ULID.crockfordChar i < ULID.crockfordChar j := by
  decide

lemma crockfordChar_indexOf :
    ∀ i < 32, ULID.crockfordData.indexOf? (ULID.crockfordChar i) = some i := by
  decide

lemma crockfordChar_mem : ∀ i < 32, ULID.crockfordChar i ∈ ULID.crockfordData := by
  decide

lemma fromBitsAux_cons (b : Bool) (t : List Bool) :
    ULID.fromBitsAux (b :: t) =
      ULID.crockfordChar (bitsToNat ((b :: t).take 5)) ::
        ULID.fromBitsAux ((b :: t).drop 5) := by
  rcases t with _ | ⟨b2, _ | ⟨b3, _ | ⟨b4, _ | ⟨b5, rest⟩⟩⟩⟩ <;> rfl

lemma exists_cons_of_length_pos {l : List Bool} (h : 0 < l.length) :
    ∃ b t, l = b :: t := by
  cases l with
  | nil => simp at h
  | cons b t => exact ⟨b, t, rfl⟩

lemma pow32_eq (k : ℕ) : (2 : ℕ) ^ (5 * k) = 32 ^ k := by
  rw [pow_mul]
  norm_num

/-- The Base32 rendering of a `5*(k+1)`-bit zero-padded value is its
`k+1`-digit base-32 expansion. -/
lemma fromBitsAux_padBits :
    ∀ k x, x < 32 ^ (k + 1) →
      ULID.fromBitsAux (padBits (5 * (k + 1)) x) = base32 (k + 1) x := by
  intro k
  induction k with
  | zero =>
    intro x hx
    have hx' : x < 2 ^ 5 := by norm_num at hx ⊢; omega
    have hlen : (padBits (5 * 1) x).length = 5 := padBits_length (by norm_num) (by norm_num; omega)
    obtain ⟨b, t, hbt⟩ := exists_cons_of_length_pos (l := padBits (5 * 1) x) (by omega)
    rw [hbt] at hlen ⊢
    rw [fromBitsAux_cons]
    rw [List.take_of_length_le (by simp at hlen ⊢; omega),
      List.drop_eq_nil_of_le (by simp at hlen ⊢; omega)]
    rw [← hbt]
    have : bitsToNat (padBits (5 * 1) x) = x := bitsToNat_padBits _ _
    rw [this, ULID.fromBitsAux]
    simp [base32]
  | succ n ih =>
    intro x hx
    show ULID.fromBitsAux (padBits (5 * (n + 2)) x) = base32 (n + 2) x
    have hx2 : x < 32 ^ (n + 2) := hx
    have h32 : (2 : ℕ) ^ (5 * (n + 1)) = 32 ^ (n + 1) := pow32_eq (n + 1)
    have hxlt : x < 2 ^ (5 + 5 * (n + 1)) := by
      rw [show 5 + 5 * (n + 1) = 5 * (n + 2) by ring, pow32_eq]
      exact hx2
    have hsplit : padBits (5 * (n + 2)) x =
        padBits 5 (x / 32 ^ (n + 1)) ++ padBits (5 * (n + 1)) (x % 32 ^ (n + 1)) := by
      rw [show 5 * (n + 2) = 5 + 5 * (n + 1) by ring,
        padBits_add (by norm_num) (by omega) hxlt, h32]
    have hdivlt : x / 32 ^ (n + 1) < 32 := by
      apply Nat.div_lt_of_lt_mul
      calc x < 32 ^ (n + 2) := hx2
        _ = 32 ^ (n + 1) * 32 := by ring
    have hmodlt : x % 32 ^ (n + 1) < 32 ^ (n + 1) :=
      Nat.mod_lt _ (pow_pos (by norm_num) _)
    have hlen5 : (padBits 5 (x / 32 ^ (n + 1))).length = 5 :=
      padBits_length (by norm_num) (by norm_num; omega)
    rw [hsplit]
    obtain ⟨b, t, hbt⟩ := exists_cons_of_length_pos
      (l := padBits 5 (x / 32 ^ (n + 1))) (by omega)
    rw [hbt] at hlen5 ⊢
    rw [List.cons_append, fromBitsAux_cons, ← List.cons_append,
      List.take_left' hlen5, List.drop_left' hlen5]
    rw [← hbt, bitsToNat_padBits, ih _ hmodlt]
    conv_rhs => rw [base32]

/-- Strict monotonicity of the fixed-width base-32 character expansion in
the lexicographic order on character lists. -/
lemma base32_lt :
    ∀ k x y, x < y → y < 32 ^ k → List.Lex (· < ·) (base32 k x) (base32 k y) := by
  intro k
  induction k with
  | zero =>
    intro x y hxy hy
    simp at hy
    omega
  | succ n ih =>
    intro x y hxy hy
    have hyd : y / 32 ^ n < 32 := by
      apply Nat.div_lt_of_lt_mul
      calc y < 32 ^ (n + 1) := hy
        _ = 32 ^ n * 32 := by ring
    have hxd : x / 32 ^ n < 32 := by
      apply Nat.div_lt_of_lt_mul
      have : x < 32 ^ (n + 1) := lt_trans hxy hy
      calc x < 32 ^ (n + 1) := this
        _ = 32 ^ n * 32 := by ring
    have hle : x / 32 ^ n ≤ y / 32 ^ n := Nat.div_le_div_right (le_of_lt hxy)
    rw [base32, base32]
    rcases Nat.lt_or_ge (x / 32 ^ n) (y / 32 ^ n) with hlt | hge
    · exact List.Lex.rel (crockfordChar_strictMono _ hxd _ hyd hlt)
    · have heq : x / 32 ^ n = y / 32 ^ n := le_antisymm hle hge
      rw [heq]
      apply List.Lex.cons
      apply ih
      · have h₁ := Nat.div_add_mod x (32 ^ n)
        have h₂ := Nat.div_add_mod y (32 ^ n)
        rw [heq] at h₁
        omega
      · exact Nat.mod_lt _ (pow_pos (by norm_num) _)

/-- Every value of `crockfordChar` belongs to the alphabet (the
out-of-range default is itself an alphabet character). -/
lemma crockfordChar_mem_all (n : ℕ) : ULID.crockfordChar n ∈ ULID.crockfordData := by
  rcases Nat.lt_or_ge n 32 with h | h
  · exact crockfordChar_mem n h
  · rw [ULID.crockfordChar, List.getD_eq_default]
    · decide
    · have : ULID.crockfordData.length = 32 := by decide
      omega

/-- Every character produced by `base32` belongs to the alphabet. -/
lemma base32_mem : ∀ k x c, c ∈ base32 k x → c ∈ ULID.crockfordData := by
  intro k
  induction k with
  | zero => intro x c hc; simp [base32] at hc
  | succ n ih =>
    intro x c hc
    rw [base32] at hc
    rcases List.mem_cons.mp hc with h | h
    · subst h
      exact crockfordChar_mem_all _
    · exact ih _ _ h

lemma int_shiftLeft_128 : (1 <<< 128 : ℤ) = 2 ^ 128 := by
  norm_num [Nat.shiftLeft_eq]

/-- On an in-range integer, `encode` reaches the encoding branch. -/
lemma encode_ok {i : ℤ} (h0 : 0 ≤ i) (h1 : i < 2 ^ 128) :
    ULID.encode (.int i) =
      .ok (ULID.from_bits_to_ulidstr (padBits 130 i.toNat)) := by
  rw [ULID.encode]
  rw [if_neg (by omega), if_neg (by rw [int_shiftLeft_128]; omega)]
  norm_num [ULID.timeWidth, ULID.randomnessWidth]

lemma two_pow_130_eq : (2 : ℕ) ^ 130 = 32 ^ 26 := by norm_num

/-- The 130-bit encoding of `v < 2^130` is its 26-digit base-32 string. -/
lemma ulidstr_eq_base32 {v : ℕ} (h : v < 2 ^ 130) :
    ULID.from_bits_to_ulidstr (padBits 130 v) = ⟨base32 26 v⟩ := by
  rw [ULID.from_bits_to_ulidstr]
  rw [show (130 : ℕ) = 5 * (25 + 1) by norm_num,
    fromBitsAux_padBits 25 v (by rw [← two_pow_130_eq]; exact h)]

lemma mk_string_lt {l₁ l₂ : List Char} (h : List.Lex (· < ·) l₁ l₂) :
    (⟨l₁⟩ : String) < ⟨l₂⟩ := by
  rw [String.lt_iff_toList_lt]
  exact h

lemma mk_string_length (l : List Char) : (⟨l⟩ : String).length = l.length := rfl

/-- Strict monotonicity of the 130-bit Base32 encoding in the
lexicographic string order. -/
lemma ulidstr_strictMono {u v : ℕ} (huv : u < v) (hv : v < 2 ^ 130) :
    ULID.from_bits_to_ulidstr (padBits 130 u) <
      ULID.from_bits_to_ulidstr (padBits 130 v) := by
  rw [ulidstr_eq_base32 (lt_trans huv hv), ulidstr_eq_base32 hv]
  exact mk_string_lt (base32_lt 26 u v huv (by rw [← two_pow_130_eq]; exact hv))

/-- Decoding the base-32 digit string of `x` recovers its zero-padded
bit string. -/
lemma decodeBits_base32 :
    ∀ k x, x < 32 ^ (k + 1) →
      ULID.decodeBits (base32 (k + 1) x) = .ok (padBits (5 * (k + 1)) x) := by
  intro k
  induction k with
  | zero =>
    intro x hx
    have hx32 : x < 32 := by norm_num at hx; omega
    simp only [base32, pow_zero, Nat.div_one, Nat.mod_one]
    rw [ULID.decodeBits, crockfordChar_indexOf x hx32]
    rw [ULID.decodeBits]
    simp
  | succ n ih =>
    intro x hx
    show ULID.decodeBits (base32 (n + 2) x) = .ok (padBits (5 * (n + 2)) x)
    have hx2 : x < 32 ^ (n + 2) := hx
    have hdivlt : x / 32 ^ (n + 1) < 32 := by
      apply Nat.div_lt_of_lt_mul
      calc x < 32 ^ (n + 2) := hx2
        _ = 32 ^ (n + 1) * 32 := by ring
    have hmodlt : x % 32 ^ (n + 1) < 32 ^ (n + 1) :=
      Nat.mod_lt _ (pow_pos (by norm_num) _)
    rw [base32, ULID.decodeBits, crockfordChar_indexOf _ hdivlt]
    rw [ih _ hmodlt]
    have hxlt : x < 2 ^ (5 + 5 * (n + 1)) := by
      rw [show 5 + 5 * (n + 1) = 5 * (n + 2) by ring, pow32_eq]
      exact hx2
    have hsplit : padBits (5 * (n + 2)) x =
        padBits 5 (x / 32 ^ (n + 1)) ++ padBits (5 * (n + 1)) (x % 32 ^ (n + 1)) := by
      rw [show 5 * (n + 2) = 5 + 5 * (n + 1) by ring,
        padBits_add (by norm_num) (by omega) hxlt, pow32_eq]
    rw [hsplit]
    rfl

lemma except_bind_ok {ε α β : Type} (a : α) (f : α → Except ε β) :
    (Except.ok a >>= f : Except ε β) = f a := rfl

lemma intOfBits_ne_nil {l : List Bool} (h : l ≠ []) :
    ULID.intOfBits l = .ok (bitsToNat l) := by
  rw [ULID.intOfBits, if_neg]
  simp [h]

lemma padBits_ne_nil {w n : ℕ} (hw : 1 ≤ w) (h : n < 2 ^ w) :
    padBits w n ≠ [] := by
  intro hnil
  have := padBits_length hw h
  rw [hnil] at this
  simp at this
  omega

/-- Decoding the canonical 26-character encoding of `v < 2^128` yields
the top 50 bits and the low 80 bits of the 130-bit zero-padded value. -/
lemma decode_ulidstr {v : ℕ} (h : v < 2 ^ 128) :
    ULID.decode (ULID.from_bits_to_ulidstr (padBits 130 v)) =
      .ok (v / 2 ^ 80, v % 2 ^ 80) := by
  have h130 : v < 2 ^ 130 := by omega
  have hdiv : v / 2 ^ 80 < 2 ^ 50 := by
    apply Nat.div_lt_of_lt_mul
    calc v < 2 ^ 130 := h130
      _ = 2 ^ 80 * 2 ^ 50 := by norm_num
  have hdiv48 : v / 2 ^ 80 < 2 ^ 48 := by
    apply Nat.div_lt_of_lt_mul
    calc v < 2 ^ 128 := h
      _ = 2 ^ 80 * 2 ^ 48 := by norm_num
  have hmod : v % 2 ^ 80 < 2 ^ 80 := Nat.mod_lt _ (by norm_num)
  have hsplit : padBits 130 v = padBits 50 (v / 2 ^ 80) ++ padBits 80 (v % 2 ^ 80) := by
    rw [show (130 : ℕ) = 50 + 80 by norm_num, padBits_add (by norm_num) (by norm_num)
      (by norm_num; omega)]
  have hlen50 : (padBits 50 (v / 2 ^ 80)).length = ULID.timeWidth :=
    padBits_length (by norm_num) hdiv
  have hlen80 : (padBits 80 (v % 2 ^ 80)).length = 80 :=
    padBits_length (by norm_num) hmod
  have hstr : ULID.from_bits_to_ulidstr (padBits 130 v) = ⟨base32 26 v⟩ :=
    ulidstr_eq_base32 h130
  have hslen : (⟨base32 26 v⟩ : String).length = 26 := by
    rw [mk_string_length, base32_length]
  have hdec : ULID.decodeBits (base32 26 v) = .ok (padBits 130 v) := by
    have h26 : v < 32 ^ 26 := by rw [← two_pow_130_eq]; exact h130
    exact decodeBits_base32 25 v h26
  rw [hstr, ULID.decode, if_neg (by rw [hslen]; omega)]
  show (ULID.decodeBits (base32 26 v) >>= fun ulid_bits => _) = _
  rw [hdec, except_bind_ok]
  rw [hsplit, List.take_left' hlen50]
  rw [intOfBits_ne_nil (padBits_ne_nil (by norm_num) hdiv), except_bind_ok]
  rw [bitsToNat_padBits]
  rw [if_neg (by show ¬ (ULID.MAX_EPOCH_TIME < v / 2 ^ 80); rw [ULID.MAX_EPOCH_TIME]; omega)]
  rw [List.drop_left' hlen50]
  rw [intOfBits_ne_nil (padBits_ne_nil (by norm_num) hmod), except_bind_ok]
  rw [bitsToNat_padBits]
  rfl

lemma pyBitLen_le_iff {w n : ℕ} (hw : 1 ≤ w) : pyBitLen n ≤ w ↔ n < 2 ^ w := by
  constructor
  · intro h
    have hlt : bitsToNat (natBits n) < 2 ^ (natBits n).length := bitsToNat_lt _
    rw [natBits_toNat] at hlt
    calc n < 2 ^ (natBits n).length := hlt
      _ ≤ 2 ^ w := Nat.pow_le_pow_right (by norm_num) h
  · intro h
    exact natBits_length_le hw h

/-- The string emitted by `Monotonic.generate`: timestamp field `a`
(50 bits) concatenated with randomness field `b` (80 bits), rendered in
Base32. -/
def monoOut (a b : ℕ) : String :=
  ULID.from_bits_to_ulidstr (padBits 50 a ++ padBits 80 b)

lemma monoOut_eq_ulidstr {a b : ℕ} (ha : a < 2 ^ 50) (hb : b < 2 ^ 80) :
    monoOut a b = ULID.from_bits_to_ulidstr (padBits 130 (a * 2 ^ 80 + b)) := by
  rw [monoOut]
  congr 1
  have hlt : a * 2 ^ 80 + b < 2 ^ 130 := by omega
  rw [show (130 : ℕ) = 50 + 80 by norm_num,
    padBits_add (by norm_num) (by norm_num) (by norm_num; omega)]
  have hdiv : (a * 2 ^ 80 + b) / 2 ^ 80 = a := by omega
  have hmod : (a * 2 ^ 80 + b) % 2 ^ 80 = b := by omega
  rw [hdiv, hmod]

lemma monoOut_lt {a₁ b₁ a₂ b₂ : ℕ} (ha₁ : a₁ < 2 ^ 50) (hb₁ : b₁ < 2 ^ 80)
    (ha₂ : a₂ < 2 ^ 50) (hb₂ : b₂ < 2 ^ 80)
    (h : a₁ * 2 ^ 80 + b₁ < a₂ * 2 ^ 80 + b₂) :
    monoOut a₁ b₁ < monoOut a₂ b₂ := by
  rw [monoOut_eq_ulidstr ha₁ hb₁, monoOut_eq_ulidstr ha₂ hb₂]
  exact ulidstr_strictMono h (by omega)


/-- Evaluation of `generate` in the same-millisecond branch with no
stored randomness (only possible on the first call). -/
lemma generate_same_none {prev : ℕ} {seed : Option ℤ} {t r : ℕ}
    (hc : ((t : ℤ) - (prev : ℤ)) % 1000000 ≤ 1000) :
    Monotonic.generate ⟨prev, none, seed⟩ t r =
      .ok (monoOut (prev / 1000) r, ⟨prev, some (padBits 80 r), seed⟩) := by
  rw [Monotonic.generate, if_pos hc]
  rfl

/-- Evaluation of `generate` in the same-millisecond branch when the
stored randomness is at its maximum: the increment overflows 80 bits and
the call raises `ValueError`. -/
lemma generate_same_overflow {prev : ℕ} {rb : List Bool} {seed : Option ℤ} {t r : ℕ}
    (hc : ((t : ℤ) - (prev : ℤ)) % 1000000 ≤ 1000)
    (hov : 80 < pyBitLen (bitsToNat rb + 1)) :
    Monotonic.generate ⟨prev, some rb, seed⟩ t r = .error .valueError := by
  rw [Monotonic.generate, if_pos hc]
  dsimp only
  simp only [ULID.randomnessWidth]
  rw [if_pos hov]

/-- Evaluation of `generate` in the same-millisecond branch with stored
randomness that does not overflow: increment it. -/
lemma generate_same_incr {prev : ℕ} {rb : List Bool} {seed : Option ℤ} {t r : ℕ}
    (hc : ((t : ℤ) - (prev : ℤ)) % 1000000 ≤ 1000)
    (hnov : ¬ 80 < pyBitLen (bitsToNat rb + 1)) :
    Monotonic.generate ⟨prev, some rb, seed⟩ t r =
      .ok (monoOut (prev / 1000) (bitsToNat rb + 1),
        ⟨prev, some (padBits 80 (bitsToNat rb + 1)), seed⟩) := by
  rw [Monotonic.generate, if_pos hc]
  dsimp only
  simp only [ULID.randomnessWidth]
  rw [if_neg hnov]
  rfl

/-- Evaluation of `generate` in the new-millisecond branch: fresh
timestamp and fresh randomness. -/
lemma generate_new {prev : ℕ} {prb : Option (List Bool)} {seed : Option ℤ} {t r : ℕ}
    (hc : ¬ ((t : ℤ) - (prev : ℤ)) % 1000000 ≤ 1000) :
    Monotonic.generate ⟨prev, prb, seed⟩ t r =
      .ok (monoOut (t / 1000) r, ⟨t, some (padBits 80 r), seed⟩) := by
  rw [Monotonic.generate, if_neg hc]
  rfl

/-- Invariant relating a generator state to the string it last emitted:
the stored bits are an 80-bit string, the stored time is in range, and
the last output renders the stored timestamp with the stored randomness. -/
def GenInv (m : Monotonic) (o : String) : Prop :=
  ∃ rb, m.prevRandBits = some rb ∧ rb.length = 80 ∧
    m.prevUtcTime < 2 ^ 50 * 1000 ∧
    o = monoOut (m.prevUtcTime / 1000) (bitsToNat rb)

/-- Soundness of one `generate` call: from a well-formed state it
re-establishes the invariant, keeps the stored time at most the current
time, and emits a string strictly above any invariant-related previous
output. -/
lemma generate_sound {m : Monotonic} {t r : ℕ} {o₂ : String} {m₂ : Monotonic}
    (hpb : m.prevUtcTime < 2 ^ 50 * 1000)
    (hwf : ∀ rb, m.prevRandBits = some rb → rb.length = 80)
    (hprev : m.prevUtcTime ≤ t) (ht : t < 2 ^ 50 * 1000) (hr : r < 2 ^ 80)
    (hgen : m.generate t r = .ok (o₂, m₂)) :
    GenInv m₂ o₂ ∧ m₂.prevUtcTime ≤ t ∧ ∀ o₁, GenInv m o₁ → o₁ < o₂ := by
  obtain ⟨prev, prb, seed⟩ := m
  dsimp only at hpb hwf hprev hgen
  have hrlen : (padBits 80 r).length = 80 := padBits_length (by norm_num) hr
  by_cases hc : ((t : ℤ) - (prev : ℤ)) % 1000000 ≤ 1000
  · rcases prb with _ | rb
    · rw [generate_same_none hc] at hgen
      simp only [Except.ok.injEq, Prod.mk.injEq] at hgen
      obtain ⟨ho, hm⟩ := hgen
      subst ho
      subst hm
      refine ⟨⟨padBits 80 r, rfl, hrlen, hpb, by rw [bitsToNat_padBits]⟩, hprev, ?_⟩
      intro o₁ hinv
      obtain ⟨rb', hrb', _⟩ := hinv
      exact absurd hrb' (by simp)
    · have hrblen : rb.length = 80 := hwf rb rfl
      have hrbval : bitsToNat rb < 2 ^ 80 := by
        have := bitsToNat_lt rb
        rw [hrblen] at this
        exact this
      by_cases hov : 80 < pyBitLen (bitsToNat rb + 1)
      · rw [generate_same_overflow hc hov] at hgen
        exact absurd hgen (by simp)
      · rw [generate_same_incr hc hov] at hgen
        have hlt : bitsToNat rb + 1 < 2 ^ 80 :=
          (pyBitLen_le_iff (by norm_num)).mp (by omega)
        have hlen : (padBits 80 (bitsToNat rb + 1)).length = 80 :=
          padBits_length (by norm_num) hlt
        simp only [Except.ok.injEq, Prod.mk.injEq] at hgen
        obtain ⟨ho, hm⟩ := hgen
        subst ho
        subst hm
        refine ⟨⟨padBits 80 (bitsToNat rb + 1), rfl, hlen, hpb,
          by rw [bitsToNat_padBits]⟩, hprev, ?_⟩
        intro o₁ hinv
        obtain ⟨rb', hrb', hlen', hbound', ho₁⟩ := hinv
        dsimp only at hrb' hbound' ho₁
        have hrbeq : rb' = rb := (Option.some.inj hrb').symm
        subst hrbeq
        subst ho₁
        exact monoOut_lt (by omega) hrbval (by omega) hlt (by omega)
  · rw [generate_new hc] at hgen
    simp only [Except.ok.injEq, Prod.mk.injEq] at hgen
    obtain ⟨ho, hm⟩ := hgen
    subst ho
    subst hm
    refine ⟨⟨padBits 80 r, rfl, hrlen, ht, by rw [bitsToNat_padBits]⟩, le_refl t, ?_⟩
    intro o₁ hinv
    obtain ⟨rb', hrb', hlen', hbound', ho₁⟩ := hinv
    dsimp only at hrb' hbound' ho₁
    subst ho₁
    have hrbval : bitsToNat rb' < 2 ^ 80 := by
      have := bitsToNat_lt rb'
      rw [hlen'] at this
      exact this
    have htgap : prev + 1001 ≤ t := by omega
    have hdivlt : prev / 1000 + 1 ≤ t / 1000 := by omega
    exact monoOut_lt (by omega) hrbval (by omega) hr (by omega)

lemma except_bind_err {ε α β : Type} (e : ε) (f : α → Except ε β) :
    (Except.error e >>= f : Except ε β) = Except.error e := rfl

lemma chain_le_of_le {a b : ℕ} {l : List ℕ} (hab : a ≤ b)
    (h : List.Chain (· ≤ ·) b l) : List.Chain (· ≤ ·) a l := by
  cases h with
  | nil => exact List.Chain.nil
  | cons hbc hcl => exact List.Chain.cons (le_trans hab hbc) hcl

/-- Running the generator from an invariant-related state produces a
strictly increasing chain of outputs above the previous output. -/
lemma runGen_chain :
    ∀ (inputs : List (ℕ × ℕ)) (m : Monotonic) (o : String) (os : List String)
      (mf : Monotonic),
      GenInv m o →
      List.Chain (· ≤ ·) m.prevUtcTime (inputs.map Prod.fst) →
      (∀ p ∈ inputs, p.1 < 2 ^ 50 * 1000) →
      (∀ p ∈ inputs, p.2 < 2 ^ 80) →
      Monotonic.runGen m inputs = .ok (os, mf) →
      List.Chain (· < ·) o os := by
  intro inputs
  induction inputs with
  | nil =>
    intro m o os mf hinv hchain htb hrb hrun
    rw [Monotonic.runGen] at hrun
    simp only [Except.ok.injEq, Prod.mk.injEq] at hrun
    rw [← hrun.1]
    exact List.Chain.nil
  | cons p rest ih =>
    obtain ⟨t, r⟩ := p
    intro m o os mf hinv hchain htb hrb hrun
    rw [Monotonic.runGen] at hrun
    cases hg : m.generate t r with
    | error e => rw [hg, except_bind_err] at hrun; simp at hrun
    | ok pr =>
      obtain ⟨o₂, m₂⟩ := pr
      rw [hg, except_bind_ok] at hrun
      dsimp only at hrun
      cases hrest : Monotonic.runGen m₂ rest with
      | error e => rw [hrest, except_bind_err] at hrun; simp at hrun
      | ok q =>
        obtain ⟨os', mf'⟩ := q
        rw [hrest, except_bind_ok] at hrun
        dsimp only at hrun
        have hos : os = o₂ :: os' := by
          simp only [pure, Except.pure, Except.ok.injEq, Prod.mk.injEq] at hrun
          exact hrun.1.symm
        subst hos
        have hinvKeep := hinv
        obtain ⟨rb, hrb', hlen, hbound, _⟩ := hinv
        have hchain' : List.Chain (· ≤ ·) m.prevUtcTime (t :: rest.map Prod.fst) := by
          simpa using hchain
        have hprevt : m.prevUtcTime ≤ t := by
          cases hchain' with
          | cons hle _ => exact hle
        have hresttimes : List.Chain (· ≤ ·) t (rest.map Prod.fst) := by
          cases hchain' with
          | cons _ hcl => exact hcl
        have hwf : ∀ rb'', m.prevRandBits = some rb'' → rb''.length = 80 := by
          intro rb'' h''
          rw [hrb'] at h''
          rw [← Option.some.inj h'']
          exact hlen
        have step := generate_sound hbound hwf hprevt
          (htb (t, r) (by simp)) (hrb (t, r) (by simp)) hg
        obtain ⟨hinv₂, hm₂le, hlt⟩ := step
        refine List.Chain.cons (hlt o hinvKeep) ?_
        exact ih m₂ o₂ os' mf' hinv₂ (chain_le_of_le hm₂le hresttimes)
          (fun q hq => htb q (List.mem_cons_of_mem _ hq))
          (fun q hq => hrb q (List.mem_cons_of_mem _ hq)) hrest

lemma ulidstr_length {v : ℕ} (h : v < 2 ^ 130) :
    (ULID.from_bits_to_ulidstr (padBits 130 v)).length = 26 := by
  rw [ulidstr_eq_base32 h, mk_string_length, base32_length]

/-- C1: for every integer `v` with `0 ≤ v < 2^128`, `decode(encode(v))`
returns the pair `(v >> 80, v & (2^80 - 1))` without raising any error. -/
theorem ulid_decode_encode_roundtrip (v : ℕ) (h : v < 2 ^ 128) :
    ∃ s, ULID.encode (.int (v : ℤ)) = .ok s ∧
      ULID.decode s = .ok (v >>> 80, v &&& (2 ^ 80 - 1)) := by
  have h0 : (0 : ℤ) ≤ (v : ℤ) := by positivity
  have h1 : (v : ℤ) < 2 ^ 128 := by exact_mod_cast h
  refine ⟨_, encode_ok h0 h1, ?_⟩
  rw [Int.toNat_natCast, Nat.shiftRight_eq_div_pow, Nat.and_pow_two_sub_one_eq_mod]
  exact decode_ulidstr h

/-- Witness for C1 at the concrete value used in the source docstring. -/
theorem ulid_decode_encode_roundtrip_witness :
    ∃ s, ULID.encode (.int ((340282366920938463463374607431768167 : ℕ) : ℤ)) = .ok s ∧
      ULID.decode s = .ok ((340282366920938463463374607431768167 : ℕ) >>> 80,
        (340282366920938463463374607431768167 : ℕ) &&& (2 ^ 80 - 1)) :=
  ulid_decode_encode_roundtrip 340282366920938463463374607431768167 (by norm_num)

/-- C2: for all integers `u`, `v` with `0 ≤ u < v < 2^128`, `encode(u)`
and `encode(v)` are 26-character strings and `encode(u)` is strictly
lexicographically smaller than `encode(v)`. -/
theorem ulid_encode_order_preserving (u v : ℤ) (h0 : 0 ≤ u) (huv : u < v)
    (hv : v < 2 ^ 128) :
    ∃ su sv, ULID.encode (.int u) = .ok su ∧ ULID.encode (.int v) = .ok sv ∧
      su.length = 26 ∧ sv.length = 26 ∧ su < sv := by
  have h0v : (0 : ℤ) ≤ v := le_trans h0 (le_of_lt huv)
  refine ⟨_, _, encode_ok h0 (lt_trans huv hv), encode_ok h0v hv, ?_, ?_, ?_⟩
  · exact ulidstr_length (by omega)
  · exact ulidstr_length (by omega)
  · exact ulidstr_strictMono (show u.toNat < v.toNat by omega)
      (show v.toNat < 2 ^ 130 by omega)

/-- Witness for C2 at `u = 0`, `v = 1`. -/
theorem ulid_encode_order_preserving_witness :
    ∃ su sv, ULID.encode (.int 0) = .ok su ∧ ULID.encode (.int 1) = .ok sv ∧
      su.length = 26 ∧ sv.length = 26 ∧ su < sv :=
  ulid_encode_order_preserving 0 1 (by norm_num) (by norm_num) (by norm_num)

/-- C7: `encode` raises the range-violation error (Python `ValueError`,
the spec's RangeError class) exactly on integers outside `[0, 2^128)`,
raises `TypeError` on non-integer input, and returns a 26-character
string on every integer in range. -/
theorem encode_validation :
    (∀ i : ℤ, i < 0 ∨ 2 ^ 128 ≤ i → ULID.encode (.int i) = .error .valueError) ∧
    (∀ s : String, ULID.encode (.str s) = .error .typeError) ∧
    (∀ i : ℤ, 0 ≤ i → i < 2 ^ 128 →
      ∃ out, ULID.encode (.int i) = .ok out ∧ out.length = 26) := by
  refine ⟨?_, ?_, ?_⟩
  · intro i hi
    rw [ULID.encode]
    rcases lt_or_ge i 0 with hneg | hpos
    · rw [if_pos hneg]
    · rw [if_neg (by omega), if_pos (by rw [int_shiftLeft_128]; omega)]
  · intro s
    rfl
  · intro i h0 h1
    exact ⟨_, encode_ok h0 h1, ulidstr_length (by omega)⟩

/-- Witness for C7 at `-1`, `2^128`, a non-integer value, and `0`. -/
theorem encode_validation_witness :
    ULID.encode (.int (-1)) = .error .valueError ∧
    ULID.encode (.int (2 ^ 128)) = .error .valueError ∧
    ULID.encode (.str "Hello") = .error .typeError ∧
    ∃ out, ULID.encode (.int 0) = .ok out ∧ out.length = 26 :=
  ⟨encode_validation.1 (-1) (Or.inl (by norm_num)),
   encode_validation.1 (2 ^ 128) (Or.inr (le_refl _)),
   encode_validation.2.1 "Hello",
   encode_validation.2.2 0 (le_refl 0) (by norm_num)⟩

lemma encode_timestamp_ok {t : ℤ} (h0 : 0 ≤ t) (h1 : t ≤ (ULID.MAX_EPOCH_TIME : ℤ)) :
    ULID.encode_timestamp (.int t) =
      .ok (ULID.from_bits_to_ulidstr (padBits 50 t.toNat)) := by
  rw [ULID.encode_timestamp, if_neg (by omega), if_neg (by omega)]
  norm_num [ULID.timeWidth]

lemma pow50_eq : (2 : ℕ) ^ 50 = 32 ^ 10 := by norm_num

lemma ts_ulidstr_eq_base32 {x : ℕ} (h : x < 2 ^ 50) :
    ULID.from_bits_to_ulidstr (padBits 50 x) = ⟨base32 10 x⟩ := by
  rw [ULID.from_bits_to_ulidstr]
  rw [show (50 : ℕ) = 5 * (9 + 1) by norm_num,
    fromBitsAux_padBits 9 x (by rw [← pow50_eq]; exact h)]

/-- C8: `encode_timestamp(281474976710655)` returns `"7ZZZZZZZZZ"`,
`encode_timestamp(281474976710656)` raises the range error (Python
`ValueError`, the spec's RangeError class), and in general
`encode_timestamp` returns a 10-character alphabet string on
`[0, MAX_EPOCH_TIME]` and fails outside that range. -/
theorem encode_timestamp_boundary :
    ULID.encode_timestamp (.int 281474976710655) = .ok "7ZZZZZZZZZ" ∧
    ULID.encode_timestamp (.int 281474976710656) = .error .valueError ∧
    (∀ t : ℤ, 0 ≤ t → t ≤ (ULID.MAX_EPOCH_TIME : ℤ) →
      ∃ out, ULID.encode_timestamp (.int t) = .ok out ∧ out.length = 10 ∧
        ∀ c ∈ out.data, c ∈ ULID.crockfordData) ∧
    (∀ t : ℤ, t < 0 ∨ (ULID.MAX_EPOCH_TIME : ℤ) < t →
      ULID.encode_timestamp (.int t) = .error .valueError) := by
  refine ⟨by decide, by decide, ?_, ?_⟩
  · intro t h0 h1
    have hlt : t.toNat < 2 ^ 50 := by
      have : (ULID.MAX_EPOCH_TIME : ℤ) = 281474976710655 := by
        rw [ULID.MAX_EPOCH_TIME]
        norm_num
      omega
    refine ⟨_, encode_timestamp_ok h0 h1, ?_, ?_⟩
    · rw [ts_ulidstr_eq_base32 hlt, mk_string_length, base32_length]
    · intro c hc
      rw [ts_ulidstr_eq_base32 hlt] at hc
      exact base32_mem 10 t.toNat c hc
  · intro t ht
    rw [ULID.encode_timestamp]
    rcases lt_or_ge t 0 with hneg | hpos
    · rw [if_pos hneg]
    · rw [if_neg (by omega), if_pos (by omega)]

/-- Witness for C8 at `t = 0` (in range) and `t = -1` (out of range). -/
theorem encode_timestamp_boundary_witness :
    (∃ out, ULID.encode_timestamp (.int 0) = .ok out ∧ out.length = 10 ∧
      ∀ c ∈ out.data, c ∈ ULID.crockfordData) ∧
    ULID.encode_timestamp (.int (-1)) = .error .valueError :=
  ⟨encode_timestamp_boundary.2.2.1 0 (le_refl 0) (by decide),
   encode_timestamp_boundary.2.2.2 (-1) (Or.inl (by norm_num))⟩

set_option maxRecDepth 8000 in
/-- C9: decoding the reference vector `"01BX5ZZKBKACTAV9WEVGEMMVRY"`
yields exactly the pair `(1508808576371, 392928161897179156999966)`. -/
theorem decode_reference_vector :
    ULID.decode "01BX5ZZKBKACTAV9WEVGEMMVRY" =
      .ok (1508808576371, 392928161897179156999966) := by
  decide

/-- C3: on one `Monotonic` instance — with a non-decreasing wall clock,
realistic times (below `2^50` ms), 80-bit entropy draws, and every call
returning without error — the emitted strings are strictly
lexicographically increasing in emission order.  In particular the
sequence is non-decreasing, and two calls served within the same
millisecond never emit equal strings. -/
theorem monotonic_generate_sorted (seed : Option ℤ) (inputs : List (ℕ × ℕ))
    (os : List String) (mf : Monotonic)
    (htimes : List.Chain' (· ≤ ·) (inputs.map Prod.fst))
    (htb : ∀ p ∈ inputs, p.1 < 2 ^ 50 * 1000)
    (hrb : ∀ p ∈ inputs, p.2 < 2 ^ 80)
    (hrun : Monotonic.runGen (Monotonic.init seed) inputs = .ok (os, mf)) :
    List.Sorted (· < ·) os := by
  cases inputs with
  | nil =>
    rw [Monotonic.runGen] at hrun
    simp only [Except.ok.injEq, Prod.mk.injEq] at hrun
    rw [← hrun.1]
    exact List.sorted_nil
  | cons p rest =>
    obtain ⟨t, r⟩ := p
    rw [Monotonic.runGen] at hrun
    cases hg : (Monotonic.init seed).generate t r with
    | error e => rw [hg, except_bind_err] at hrun; simp at hrun
    | ok pr =>
      obtain ⟨o₁, m₁⟩ := pr
      rw [hg, except_bind_ok] at hrun
      dsimp only at hrun
      cases hrest : Monotonic.runGen m₁ rest with
      | error e => rw [hrest, except_bind_err] at hrun; simp at hrun
      | ok q =>
        obtain ⟨os', mf'⟩ := q
        rw [hrest, except_bind_ok] at hrun
        dsimp only at hrun
        have hos : os = o₁ :: os' := by
          simp only [pure, Except.pure, Except.ok.injEq, Prod.mk.injEq] at hrun
          exact hrun.1.symm
        subst hos
        have hstep := generate_sound (m := Monotonic.init seed)
          (by norm_num [Monotonic.init]) (by intro rb h; simp [Monotonic.init] at h)
          (by simp [Monotonic.init]) (htb (t, r) (by simp)) (hrb (t, r) (by simp)) hg
        obtain ⟨hinv₁, hle₁, _⟩ := hstep
        have ht' : List.Chain (· ≤ ·) t (rest.map Prod.fst) := by
          have h0 : List.Chain' (· ≤ ·) (t :: rest.map Prod.fst) := by
            simpa using htimes
          exact h0
        have hchain : List.Chain (· < ·) o₁ os' :=
          runGen_chain rest m₁ o₁ os' mf' hinv₁ (chain_le_of_le hle₁ ht')
            (fun q hq => htb q (List.mem_cons_of_mem _ hq))
            (fun q hq => hrb q (List.mem_cons_of_mem _ hq)) hrest
        exact List.chain_iff_pairwise.mp hchain

set_option maxRecDepth 8000 in
/-- Witness for C3: a three-call run (all three land in the code's
same-millisecond branch) emits strictly increasing strings. -/
theorem monotonic_generate_sorted_witness :
    List.Sorted (· < ·)
      ["00000000000000000000000005", "00000000000000000000000006",
        "00000000000000000000000007"] :=
  monotonic_generate_sorted none [(1000500, 5), (1000700, 9), (3000000, 2)]
    ["00000000000000000000000005", "00000000000000000000000006",
      "00000000000000000000000007"]
    ⟨0, some (padBits 80 7), none⟩
    (by exact List.Chain.cons (by norm_num) (List.Chain.cons (by norm_num) List.Chain.nil))
    (by decide) (by decide) (by decide)

/-- C4 (amended): when the stored randomness is `2^80 - 1` and `generate`
is invoked again within the same millisecond, the call fails — but with
Python `ValueError` (message "The random component has overflowed"), not
with `OverflowError` as the claim states; it neither wraps the
randomness nor falls back to a non-monotonic value. -/
theorem monotonic_overflow_raises (prev t r : ℕ) (seed : Option ℤ)
    (hle : prev ≤ t) (hsame : t - prev ≤ 999) :
    Monotonic.generate ⟨prev, some (padBits 80 (2 ^ 80 - 1)), seed⟩ t r =
      .error .valueError := by
  have hc : ((t : ℤ) - (prev : ℤ)) % 1000000 ≤ 1000 := by omega
  apply generate_same_overflow hc
  rw [bitsToNat_padBits]
  have h1 : (2 ^ 80 - 1 : ℕ) + 1 = 2 ^ 80 := by norm_num
  rw [h1]
  by_contra hn
  have := (pyBitLen_le_iff (w := 80) (n := 2 ^ 80) (by norm_num)).mp (by omega)
  omega

/-- Witness for C4 at a concrete saturated state and same-millisecond
call. -/
theorem monotonic_overflow_raises_witness :
    Monotonic.generate ⟨0, some (padBits 80 (2 ^ 80 - 1)), none⟩ 500 3 =
      .error .valueError :=
  monotonic_overflow_raises 0 500 3 none (by norm_num) (by norm_num)

set_option maxRecDepth 8000 in
/-- C4 counterexample: at the saturated state the code raises
`ValueError`, which is a different Python exception than the
`OverflowError` the claim names. -/
theorem monotonic_overflow_not_overflowError :
    Monotonic.generate ⟨0, some (padBits 80 (2 ^ 80 - 1)), none⟩ 500 3 =
      .error .valueError ∧ PyError.valueError ≠ PyError.overflowError := by
  constructor
  · decide
  · decide

set_option maxRecDepth 8000 in
/-- C5: the branch decision is wrong.  On a fresh instance
(`last_timestamp` = epoch) with the clock reading exactly 2 s after the
epoch — a difference of 2000 ms ≥ 1 ms, which the claim says must take
the new-millisecond transition — the code computes
`(curr - prev).microseconds`, the sub-second microsecond component
(here 0), takes the same-millisecond branch, keeps `last_timestamp` at
the epoch, and emits a string whose timestamp field is 0. -/
theorem monotonic_branch_decision_bug :
    Monotonic.generate (Monotonic.init none) 2000000 7 =
      .ok (monoOut 0 7, ⟨0, some (padBits 80 7), none⟩) := by
  decide

/-- Index of a character in the alphabet, with default 0 for characters
outside it (used only to state totalised versions of decode facts; at
alphabet characters it agrees with `str.find`). -/
def charIdxD (c : Char) : ℕ := (ULID.crockfordData.indexOf? c).getD 0

/-- The bit string `decode` builds from a list of alphabet characters. -/
def bitsOfChars (cs : List Char) : List Bool :=
  (cs.map (fun c => padBits 5 (charIdxD c))).flatten

/-- The bit string `decode` builds from a string of alphabet characters. -/
def bitsOfD (s : String) : List Bool := bitsOfChars s.data

lemma indexOf?_of_mem : ∀ {l : List Char} {c : Char}, c ∈ l →
    ∃ i, l.indexOf? c = some i ∧ i < l.length := by
  intro l
  induction l with
  | nil => intro c h; simp at h
  | cons x xs ih =>
    intro c h
    rw [List.indexOf?_cons]
    by_cases hx : x == c
    · exact ⟨0, by rw [if_pos hx], by simp⟩
    · have hc : c ∈ xs := by
        rcases List.mem_cons.mp h with h1 | h1
        · subst h1
          simp at hx
        · exact h1
      obtain ⟨i, hi, hlt⟩ := ih hc
      refine ⟨i + 1, by rw [if_neg hx, hi]; rfl, ?_⟩
      simp only [List.length_cons]
      omega

lemma indexOf?_none_of_not_mem {l : List Char} {c : Char} (h : c ∉ l) :
    l.indexOf? c = none :=
  List.indexOf?_eq_none_iff.mpr (fun _ hx hbeq => h (eq_of_beq hbeq ▸ hx))

lemma charIdxD_lt_of_mem {c : Char} (h : c ∈ ULID.crockfordData) : charIdxD c < 32 := by
  obtain ⟨i, hi, hlt⟩ := indexOf?_of_mem h
  have h32 : ULID.crockfordData.length = 32 := by decide
  rw [charIdxD, hi]
  simp only [Option.getD_some]
  omega

lemma bitsOfChars_cons (c : Char) (cs : List Char) :
    bitsOfChars (c :: cs) = padBits 5 (charIdxD c) ++ bitsOfChars cs := by
  simp [bitsOfChars]

lemma bitsOfChars_length : ∀ (cs : List Char),
    (∀ c ∈ cs, c ∈ ULID.crockfordData) →
    (bitsOfChars cs).length = 5 * cs.length := by
  intro cs
  induction cs with
  | nil => intro _; rfl
  | cons c cs ih =>
    intro h
    have hlt : charIdxD c < 32 := charIdxD_lt_of_mem (h c (by simp))
    have hp : (padBits 5 (charIdxD c)).length = 5 :=
      padBits_length (by norm_num) (by norm_num; omega)
    rw [bitsOfChars_cons, List.length_append, hp,
      ih (fun x hx => h x (List.mem_cons_of_mem _ hx))]
    simp only [List.length_cons]
    ring

lemma decodeBits_ok_of : ∀ (cs : List Char),
    (∀ c ∈ cs, c ∈ ULID.crockfordData) →
    ULID.decodeBits cs = .ok (bitsOfChars cs) := by
  intro cs
  induction cs with
  | nil => intro _; rfl
  | cons c cs ih =>
    intro h
    obtain ⟨i, hi, _⟩ := indexOf?_of_mem (h c (by simp))
    have hidx : charIdxD c = i := by
      rw [charIdxD, hi]
      rfl
    rw [ULID.decodeBits, hi]
    dsimp only
    rw [ih (fun x hx => h x (List.mem_cons_of_mem _ hx)), except_bind_ok,
      bitsOfChars_cons, hidx]
    rfl

lemma decodeBits_err_of : ∀ (cs : List Char),
    (∃ c ∈ cs, c ∉ ULID.crockfordData) →
    ULID.decodeBits cs = .error .valueError := by
  intro cs
  induction cs with
  | nil => intro h; simp at h
  | cons c cs ih =>
    intro h
    by_cases hc : c ∈ ULID.crockfordData
    · have htail : ∃ x ∈ cs, x ∉ ULID.crockfordData := by
        obtain ⟨x, hx, hxn⟩ := h
        rcases List.mem_cons.mp hx with h1 | h1
        · subst h1
          exact absurd hc hxn
        · exact ⟨x, h1, hxn⟩
      obtain ⟨i, hi, _⟩ := indexOf?_of_mem hc
      rw [ULID.decodeBits, hi]
      dsimp only
      rw [ih htail, except_bind_err]
    · rw [ULID.decodeBits, indexOf?_none_of_not_mem hc]

/-- C6 counterexample: `"0"` consists only of alphabet characters and
has length at most 26 (and its decoded timestamp 0 is within range),
yet `decode` raises `ValueError`: the randomness slice `ulid_bits[50:]`
is the empty string and `int("", base=2)` fails.  The claim asserts such
a string decodes without error. -/
theorem decode_short_string_rejected :
    (∀ c ∈ "0".data, c ∈ ULID.crockfordData) ∧ "0".length ≤ 26 ∧
      ULID.decode "0" = .error .valueError :=
  ⟨by decide, by decide, by decide⟩

/-- C6 (amended): `decode` raises `ValueError` exactly when the string
is longer than 26 characters, or contains a character outside the
alphabet, or has at most 10 characters (so that the randomness slice
`ulid_bits[50:]` is empty — this includes the empty string, whose
timestamp slice is already empty), or its first 50 bits decode to a
timestamp above `MAX_EPOCH_TIME`; on every other string it returns the
(timestamp, randomness) pair, and it never raises any other error. -/
theorem decode_validation (s : String) :
    (ULID.decode s = .error .valueError ↔
      26 < s.length ∨ (∃ c ∈ s.data, c ∉ ULID.crockfordData) ∨ s.length ≤ 10 ∨
        ULID.MAX_EPOCH_TIME < bitsToNat ((bitsOfD s).take ULID.timeWidth)) ∧
    (ULID.decode s = .error .valueError ∨ ∃ p, ULID.decode s = .ok p) := by
  by_cases hlen : 26 < s.length
  · have hdec : ULID.decode s = .error .valueError := by
      rw [ULID.decode, if_pos hlen]
    exact ⟨iff_of_true hdec (Or.inl hlen), Or.inl hdec⟩
  by_cases hval : ∀ c ∈ s.data, c ∈ ULID.crockfordData
  case neg =>
    have hex : ∃ c ∈ s.data, c ∉ ULID.crockfordData := by
      push_neg at hval
      exact hval
    have hdec : ULID.decode s = .error .valueError := by
      rw [ULID.decode, if_neg hlen, decodeBits_err_of s.data hex, except_bind_err]
    exact ⟨iff_of_true hdec (Or.inr (Or.inl hex)), Or.inl hdec⟩
  case pos =>
  have hblen : (bitsOfChars s.data).length = 5 * s.length := by
    rw [bitsOfChars_length s.data hval]
    rfl
  by_cases hshort : s.length ≤ 10
  · have hdec : ULID.decode s = .error .valueError := by
      rw [ULID.decode, if_neg hlen, decodeBits_ok_of s.data hval, except_bind_ok]
      by_cases hnil : s.length = 0
      · have hdata : bitsOfChars s.data = [] :=
          List.length_eq_zero.mp (by omega)
        rw [hdata]
        rfl
      · have htake : (bitsOfChars s.data).take ULID.timeWidth = bitsOfChars s.data :=
          List.take_of_length_le (by rw [hblen]; simp [ULID.timeWidth]; omega)
        have hne : bitsOfChars s.data ≠ [] := by
          intro hn
          rw [hn] at hblen
          simp at hblen
          omega
        rw [htake, intOfBits_ne_nil hne, except_bind_ok]
        by_cases hm : ULID.MAX_EPOCH_TIME < bitsToNat (bitsOfChars s.data)
        · rw [if_pos hm]
        · rw [if_neg hm]
          have hdrop : (bitsOfChars s.data).drop ULID.timeWidth = [] :=
            List.drop_eq_nil_of_le (by rw [hblen]; simp [ULID.timeWidth]; omega)
          rw [hdrop]
          rfl
    exact ⟨iff_of_true hdec (Or.inr (Or.inr (Or.inl hshort))), Or.inl hdec⟩
  · have htlen : ((bitsOfChars s.data).take ULID.timeWidth).length = ULID.timeWidth := by
      rw [List.length_take, hblen]
      simp [ULID.timeWidth]
      omega
    have htne : (bitsOfChars s.data).take ULID.timeWidth ≠ [] := by
      intro hn
      rw [hn] at htlen
      simp [ULID.timeWidth] at htlen
    have hdne : (bitsOfChars s.data).drop ULID.timeWidth ≠ [] := by
      intro hn
      have hlen0 := congrArg List.length hn
      rw [List.length_drop, hblen] at hlen0
      simp [ULID.timeWidth] at hlen0
      omega
    by_cases hm : ULID.MAX_EPOCH_TIME < bitsToNat ((bitsOfChars s.data).take ULID.timeWidth)
    · have hdec : ULID.decode s = .error .valueError := by
        rw [ULID.decode, if_neg hlen, decodeBits_ok_of s.data hval, except_bind_ok,
          intOfBits_ne_nil htne, except_bind_ok, if_pos hm]
      exact ⟨iff_of_true hdec (Or.inr (Or.inr (Or.inr hm))), Or.inl hdec⟩
    · have hdec : ULID.decode s =
          .ok (bitsToNat ((bitsOfChars s.data).take ULID.timeWidth),
            bitsToNat ((bitsOfChars s.data).drop ULID.timeWidth)) := by
        rw [ULID.decode, if_neg hlen, decodeBits_ok_of s.data hval, except_bind_ok,
          intOfBits_ne_nil htne, except_bind_ok, if_neg hm,
          intOfBits_ne_nil hdne, except_bind_ok]
        rfl
      refine ⟨iff_of_false (by rw [hdec]; simp) ?_, Or.inr ⟨_, hdec⟩⟩
      intro hor
      rcases hor with h | ⟨c, hc, hcn⟩ | h | h
      · exact hlen h
      · exact hcn (hval c hc)
      · omega
      · exact hm h

/-- Witness for C6 on a concrete 11-character alphabet string with an
in-range timestamp: `decode` succeeds. -/
theorem decode_validation_witness :
    ∃ p, ULID.decode "7ZZZZZZZZZZ" = .ok p := by
  rcases (decode_validation "7ZZZZZZZZZZ").2 with herr | hok
  · have hr := (decode_validation "7ZZZZZZZZZZ").1.mp herr
    exact absurd hr (by decide)
  · exact hok

/-- C10: the seed passed to the `Monotonic` constructor is dead state:
`generate` never reads `seed_time`, so two instances whose
`__prev_utc_time` and `__prev_rand_bits` agree behave identically under
`generate` — same emitted string, same successor time and randomness
state — whatever their seeds; and `__init__` stores the same epoch time
and unset randomness for every seed.  A fixed seed therefore cannot
force deterministic timestamps or the same-millisecond path. -/
theorem monotonic_seed_unused (prev : ℕ) (prb : Option (List Bool))
    (s₁ s₂ : Option ℤ) (t r : ℕ) :
    (Monotonic.generate ⟨prev, prb, s₁⟩ t r).map
        (fun p => (p.1, p.2.prevUtcTime, p.2.prevRandBits)) =
      (Monotonic.generate ⟨prev, prb, s₂⟩ t r).map
        (fun p => (p.1, p.2.prevUtcTime, p.2.prevRandBits)) ∧
    (Monotonic.init s₁).prevUtcTime = (Monotonic.init s₂).prevUtcTime ∧
    (Monotonic.init s₁).prevRandBits = (Monotonic.init s₂).prevRandBits := by
  refine ⟨?_, rfl, rfl⟩
  by_cases hc : ((t : ℤ) - (prev : ℤ)) % 1000000 ≤ 1000
  · rcases prb with _ | rb
    · rw [generate_same_none hc, generate_same_none hc]
      rfl
    · by_cases hov : 80 < pyBitLen (bitsToNat rb + 1)
      · rw [generate_same_overflow hc hov, generate_same_overflow hc hov]
      · rw [generate_same_incr hc hov, generate_same_incr hc hov]
        rfl
  · rw [generate_new hc, generate_new hc]
    rfl
